import Mathlib

/-!
# Verification of the `net` crates (MapleStory-family protocol library)

Shallow embedding of the packet-crypto, framing, connection, room and migration
subsystems of the repository, together with proofs of the specification claims.

Machine bytes are modelled as `Nat` with explicit `% 256` where the Rust code
wraps; `u16`/`u32` values as `Nat` below `2^16`/`2^32`; byte buffers as
`List Nat`; fallible operations as `Except NetError`.

Source files embedded here:
* `crates/shroom_net/src/crypto/ig_cipher.rs` (IG context: shuffle, key update,
  hash, byte cipher)
* `crates/shroom_net/src/crypto/round_key.rs` (`RoundKey`)
* `crates/shroom_net/src/net/crypto/aes_cipher.rs` (`ShroomAESCipher`)
* `crates/shroom-net/src/crypto/header.rs` (header codec)
* `crates/shroom-net/src/crypto/mod.rs` (`ShroomCrypto`, `ShroomVersion`)
* `crates/shroom-net/src/codec/legacy/codec.rs` (`LegacyDecoder`/`LegacyEncoder`)
* `crates/shroom-net/src/codec/legacy/mod.rs` (`LegacyCodec`, `MAX_PACKET_LEN`)
* `crates/shroom-net/src/server/server_conn.rs` (`ServerConnCtx::exec`)
* `crates/shroom-net/src/server/room.rs` (`RoomSet`, `RoomStream`)
* `crates/shroom-net/src/session/migration.rs` (`MigrationManager`)
-/

/-! ## Byte/word helpers (wrapping machine arithmetic) -/

/-- `u8::wrapping_add`. -/
def wadd8 (a b : Nat) : Nat := (a + b) % 256

/-- `u8::wrapping_sub`. -/
def wsub8 (a b : Nat) : Nat := (a + 256 - b % 256) % 256

/-- `u16::from_le_bytes` on the first two entries. -/
def leU16 (l : List Nat) : Nat := l.getD 0 0 + 256 * l.getD 1 0

/-- `u16::to_le_bytes`. -/
def u16ToLe (x : Nat) : List Nat := [x % 256, x / 256 % 256]

/-- `u32::from_le_bytes` on the first four entries. -/
def leU32 (l : List Nat) : Nat :=
  l.getD 0 0 + 256 * l.getD 1 0 + 65536 * l.getD 2 0 + 16777216 * l.getD 3 0

/-- `u32::to_le_bytes`. -/
def u32ToLe (x : Nat) : List Nat :=
  [x % 256, x / 256 % 256, x / 65536 % 256, x / 16777216 % 256]

/-- `u32::rotate_left`. -/
def rotl32 (x n : Nat) : Nat := ((x <<< n) % 4294967296) ||| ((x % 4294967296) >>> (32 - n))

/-- `u8::rotate_right`. -/
def rotr8 (x n : Nat) : Nat := ((x % 256) >>> n) ||| ((x <<< (8 - n)) % 256)

/-- `u8::rotate_left`. -/
def rotl8 (x n : Nat) : Nat := ((x <<< n) % 256) ||| ((x % 256) >>> (8 - n))

/-! ## IG context (`crates/shroom_net/src/crypto/ig_cipher.rs`) -/

/-- `IgContext`: a 256-entry shuffle table (modelled as a function on byte
values) and a 4-byte seed.  The default table and seed are opaque constant
blobs (out of scope per the spec), so the table stays abstract. -/
structure IgContext where
  shuffle_key : Nat → Nat
  seed : List Nat

/-- `IgContext::shuffle`: `self.shuffle_key[a as usize]`. -/
def IgContext.shuffle (ctx : IgContext) (a : Nat) : Nat := ctx.shuffle_key a

/-- `IgContext::update_key`: wrapping byte mixing of the 4-byte key `k` with
`data`, then a 3-bit left rotation of the key as a little-endian `u32`.
Note `k[3]` uses the already-updated `k[0]`. -/
def IgContext.update_key (ctx : IgContext) (k : List Nat) (data : Nat) : List Nat :=
  let k0 := wadd8 (k.getD 0 0) (wsub8 (ctx.shuffle (k.getD 1 0)) data)
  let k1 := wsub8 (k.getD 1 0) (k.getD 2 0 ^^^ ctx.shuffle data)
  let k2 := k.getD 2 0 ^^^ wadd8 (ctx.shuffle (k.getD 3 0)) data
  let k3 := wsub8 (k.getD 3 0) (wsub8 k0 (ctx.shuffle data))
  u32ToLe (rotl32 (leU32 [k0, k1, k2, k3]) 3)

/-- `IgContext::hash` via `IgHasher`: fold `update_key` over the data starting
from the seed, finalize as little-endian `u32`. -/
def IgContext.hash (ctx : IgContext) (data : List Nat) : Nat :=
  leU32 (data.foldl ctx.update_key ctx.seed)

/-- `IgContext::enc`: rotate right by 4, interleave the parity bit classes,
xor with the shuffle entry of the first key byte. -/
def IgContext.enc (ctx : IgContext) (data : Nat) (key : List Nat) : Nat :=
  let v := rotr8 data 4
  let even := (v &&& 0xAA) >>> 1
  let odd := (v &&& 0x55) <<< 1
  let a := even ||| odd
  a ^^^ ctx.shuffle (key.getD 0 0)

/-- `IgContext::dec`: inverse byte transform of `IgContext.enc`. -/
def IgContext.dec (ctx : IgContext) (data : Nat) (key : List Nat) : Nat :=
  let a := ctx.shuffle (key.getD 0 0) ^^^ data
  let b := (a <<< 1) % 256
  let v1 := a >>> 1
  let v2 := v1 ^^^ b
  let v3 := v2 &&& 0x55
  let v4 := v3 ^^^ b
  rotl8 v4 4

/-! ## Round key (`crates/shroom_net/src/crypto/round_key.rs`) -/

/-- `ROUND_KEY_LEN`. -/
def ROUND_KEY_LEN : Nat := 4

/-- `RoundKey::update`: `ig.hash(&self.0).into()` — the IG hash of the four key
bytes, re-split into little-endian bytes. -/
def RoundKey.update (ig : IgContext) (k : List Nat) : List Nat :=
  u32ToLe (ig.hash k)

/-- `RoundKey::expand`: replicate the 4 key bytes cyclically into a 16-byte IV
(`array_init(|i| self.0[i % ROUND_KEY_LEN])`). -/
def RoundKey.expand (k : List Nat) : List Nat :=
  (List.range 16).map fun i => k.getD (i % ROUND_KEY_LEN) 0

/-! ## Errors (`crates/shroom-net/src/error.rs`, the variants the core uses) -/

/-- `NetError` (the variants exercised by the embedded subsystems). -/
inductive NetError where
  | InvalidHeader (len : Nat) (key : Nat) (expected_key : Nat)
  | FrameSize (len : Nat)
  | HandshakeSize (len : Nat)
  | InvalidHandshake
  | PingTimeout
  deriving DecidableEq, Repr

/-! ## Header codec (`crates/shroom-net/src/crypto/header.rs`) -/

/-- `decode_header`: split the 4 header bytes as two little-endian `u16`s
(`HiLo32::from_le_bytes`), recover the length as `low ^ high` and check
`low ^ ver` against the high word of the round key. -/
def header.decode_header (hdr : List Nat) (key : List Nat) (ver : Nat) : Except NetError Nat :=
  let low := hdr.getD 0 0 + 256 * hdr.getD 1 0
  let high := hdr.getD 2 0 + 256 * hdr.getD 3 0
  let key_high := key.getD 2 0 + 256 * key.getD 3 0
  let len := low ^^^ high
  let hdr_key := low ^^^ ver
  if hdr_key ≠ key_high then
    .error (.InvalidHeader len hdr_key key_high)
  else
    .ok len

/-- `encode_header`: `low = key_high ^ ver`, `high = low ^ length`, serialized
as `low || high` in little-endian (`HiLo32::to_le_bytes`). -/
def header.encode_header (key : List Nat) (length ver : Nat) : List Nat :=
  let key_high := key.getD 2 0 + 256 * key.getD 3 0
  let low := key_high ^^^ ver
  u16ToLe low ++ u16ToLe (low ^^^ length)

/-! ### Header codec lemmas (shared) -/

lemma u16ToLe_roundtrip (x : Nat) (h : x < 65536) : leU16 (u16ToLe x) = x := by
  simp only [u16ToLe, leU16, List.getD_cons_zero, List.getD_cons_succ]
  omega

lemma header.encode_header_bytes (key : List Nat) (length ver : Nat) :
    header.encode_header key length ver =
      [((key.getD 2 0 + 256 * key.getD 3 0) ^^^ ver) % 256,
       ((key.getD 2 0 + 256 * key.getD 3 0) ^^^ ver) / 256 % 256,
       (((key.getD 2 0 + 256 * key.getD 3 0) ^^^ ver) ^^^ length) % 256,
       (((key.getD 2 0 + 256 * key.getD 3 0) ^^^ ver) ^^^ length) / 256 % 256] := by
  simp [header.encode_header, u16ToLe]

/-- Decoding an encoded header with an arbitrary verification version:
the parsed `low`/`high` words are recovered exactly when key bytes, length and
version are in range. -/
lemma decode_encode_header (key : List Nat) (length ver ver' : Nat)
    (hk2 : key.getD 2 0 < 256) (hk3 : key.getD 3 0 < 256)
    (hlen : length < 65536) (hver : ver < 65536) :
    header.decode_header (header.encode_header key length ver) key ver' =
      (if ((key.getD 2 0 + 256 * key.getD 3 0) ^^^ ver) ^^^ ver' ≠
          key.getD 2 0 + 256 * key.getD 3 0 then
        .error (.InvalidHeader length
          (((key.getD 2 0 + 256 * key.getD 3 0) ^^^ ver) ^^^ ver')
          (key.getD 2 0 + 256 * key.getD 3 0))
      else .ok length) := by
  have hkh : key.getD 2 0 + 256 * key.getD 3 0 < 65536 := by omega
  have hlow : (key.getD 2 0 + 256 * key.getD 3 0) ^^^ ver < 65536 := by
    have := Nat.xor_lt_two_pow (n := 16) (by simpa using hkh) (by simpa using hver)
    simpa using this
  have hhigh : ((key.getD 2 0 + 256 * key.getD 3 0) ^^^ ver) ^^^ length < 65536 := by
    have := Nat.xor_lt_two_pow (n := 16) (by simpa using hlow) (by simpa using hlen)
    simpa using this
  rw [header.encode_header_bytes]
  simp only [header.decode_header, List.getD_cons_zero, List.getD_cons_succ]
  have e1 : ((key.getD 2 0 + 256 * key.getD 3 0) ^^^ ver) % 256 +
      256 * (((key.getD 2 0 + 256 * key.getD 3 0) ^^^ ver) / 256 % 256) =
      (key.getD 2 0 + 256 * key.getD 3 0) ^^^ ver := by omega
  have e2 : (((key.getD 2 0 + 256 * key.getD 3 0) ^^^ ver) ^^^ length) % 256 +
      256 * ((((key.getD 2 0 + 256 * key.getD 3 0) ^^^ ver) ^^^ length) / 256 % 256) =
      ((key.getD 2 0 + 256 * key.getD 3 0) ^^^ ver) ^^^ length := by omega
  rw [e1, e2]
  rw [Nat.xor_cancel_left]

/-- Header round-trip with the same version succeeds (shared helper). -/
lemma decode_encode_header_ok (key : List Nat) (length ver : Nat)
    (hk2 : key.getD 2 0 < 256) (hk3 : key.getD 3 0 < 256)
    (hlen : length < 65536) (hver : ver < 65536) :
    header.decode_header (header.encode_header key length ver) key ver = .ok length := by
  rw [decode_encode_header key length ver ver hk2 hk3 hlen hver]
  simp [Nat.xor_cancel_right]

/-- C2: for every round key, length and version, `header.decode_header` of
`header.encode_header(k, len, v)` with the same `(k, v)` returns `Ok(len)`, and with
any different version `v'` returns the `InvalidHeader` error carrying the
decoded length, the seen key (`low ^ v'`) and the expected key (the high word
of the round key). -/
theorem header_roundtrip_and_version_mismatch (key : List Nat) (length ver ver' : Nat)
    (hk2 : key.getD 2 0 < 256) (hk3 : key.getD 3 0 < 256)
    (hlen : length < 65536) (hver : ver < 65536) (hne : ver' ≠ ver) :
    header.decode_header (header.encode_header key length ver) key ver = .ok length ∧
    header.decode_header (header.encode_header key length ver) key ver' =
      .error (.InvalidHeader length
        (((key.getD 2 0 + 256 * key.getD 3 0) ^^^ ver) ^^^ ver')
        (key.getD 2 0 + 256 * key.getD 3 0)) := by
  refine ⟨decode_encode_header_ok key length ver hk2 hk3 hlen hver, ?_⟩
  rw [decode_encode_header key length ver ver' hk2 hk3 hlen hver]
  rw [if_pos]
  intro h
  apply hne
  have h0 : ver ^^^ ver' = 0 := by
    have := congrArg (fun t => (key.getD 2 0 + 256 * key.getD 3 0) ^^^ t) h
    simp only at this
    rw [← Nat.xor_assoc, ← Nat.xor_assoc, Nat.xor_self, Nat.zero_xor] at this
    exact this
  exact (Nat.xor_eq_zero.mp h0).symm

/-! ## IG byte cipher round-trip (claim C7) -/

set_option maxRecDepth 4000 in
/-- C7: for every byte `x` and every 4-byte key, the IG byte decryption is the
exact inverse of the IG byte encryption under the same key byte:
`dec(enc(x, key), key) = x`. -/
theorem ig_byte_roundtrip (ctx : IgContext) (key : List Nat) (x : Nat)
    (hx : x < 256) :
    ctx.dec (ctx.enc x key) key = x := by
  simp only [IgContext.enc, IgContext.dec]
  rw [Nat.xor_comm _ (ctx.shuffle (key.getD 0 0)), Nat.xor_cancel_left]
  revert x
  decide

/-- A concrete IG context used by witnesses (stands in for the opaque default
shuffle table and seed blobs). -/
def testIg : IgContext := ⟨fun a => (a + 7) % 256, [13, 1, 8, 255]⟩

/-- Witness for C7 at a concrete byte and key. -/
theorem ig_byte_roundtrip_witness :
    (171 : Nat) < 256 ∧ testIg.dec (testIg.enc 171 [82, 48, 120, 232]) [82, 48, 120, 232] = 171 :=
  ⟨by decide, ig_byte_roundtrip testIg [82, 48, 120, 232] 171 (by decide)⟩

/-- Witness for C2 at the test vector from `header.rs` (`len = 44`,
`key = [0x52, 0x30, 0x78, 0xE8]`, `ver = -66i16 as u16 = 65470`), checked
against the distinct version `83`. -/
theorem header_roundtrip_and_version_mismatch_witness :
    ((44 : Nat) < 65536 ∧ (65470 : Nat) < 65536 ∧ (83 : Nat) ≠ 65470) ∧
    (header.decode_header (header.encode_header [82, 48, 120, 232] 44 65470) [82, 48, 120, 232] 65470 =
        .ok 44 ∧
      header.decode_header (header.encode_header [82, 48, 120, 232] 44 65470) [82, 48, 120, 232] 83 =
        .error (.InvalidHeader 44
          (((([82, 48, 120, 232] : List Nat).getD 2 0 +
              256 * ([82, 48, 120, 232] : List Nat).getD 3 0) ^^^ 65470) ^^^ 83)
          (([82, 48, 120, 232] : List Nat).getD 2 0 +
            256 * ([82, 48, 120, 232] : List Nat).getD 3 0))) :=
  ⟨⟨by decide, by decide, by decide⟩,
    header_roundtrip_and_version_mismatch [82, 48, 120, 232] 44 65470 83
      (by decide) (by decide) (by decide) (by decide) (by decide)⟩

/-! ## Shanda cipher

Modelled from the spec: the file `shanda_cipher.rs` (`ShandaCipher`), which
`crates/shroom-net/src/crypto/mod.rs` imports, is not present among the
sources.  The spec pins it down only as "a fixed, invertible byte shuffle over
the whole payload" with the round-trip law `Shanda-decrypt(Shanda-encrypt(p)) = p`
(§4.1, §8.4) and byte-for-byte processing of the payload in place (so it is
length-preserving).  It is therefore modelled as a bundle of an encrypt map and
a decrypt map with exactly those two properties. -/

/-- Modelled from the spec: `ShandaCipher` — an invertible, length-preserving
byte permutation of the whole payload (see the section comment above). -/
structure ShandaCipher where
  encrypt : List Nat → List Nat
  decrypt : List Nat → List Nat
  encrypt_length : ∀ p, (encrypt p).length = p.length
  decrypt_encrypt : ∀ p, decrypt (encrypt p) = p

/-- The identity instance of the Shanda interface, used by witnesses. -/
def idShanda : ShandaCipher :=
  ⟨id, id, fun _ => rfl, fun _ => rfl⟩

/-! ## AES block layer (`crates/shroom_net/src/net/crypto/aes_cipher.rs`) -/

/-- The AES-256 block primitive comes from the external `aes` crate and the
key blob is an opaque constant (both out of scope per the spec); it is
modelled as an opaque 16-byte-block transformation.  `encrypt_block` models
one `Aes256::encrypt_padded::<NoPadding>` call on a 16-byte block
(`ShroomAESCipher::get_next_key`). -/
structure Aes256 where
  encrypt_block : List Nat → List Nat
  encrypt_block_length : ∀ b, (encrypt_block b).length = 16

/-- A concrete instance of the AES block interface, used by witnesses. -/
def testAes : Aes256 :=
  ⟨fun b => (List.range 16).map (fun i => (b.getD i 0 + 3 * i + 1) % 256),
   fun _ => by simp⟩

/-- `AES_BLOCK_LEN`. -/
def AES_BLOCK_LEN : Nat := 16

/-- `BLOCK_LEN` (the 1460-byte chunk size). -/
def BLOCK_LEN : Nat := 1460

/-- `FIRST_BLOCK_LEN = BLOCK_LEN - 4 = 1456`. -/
def FIRST_BLOCK_LEN : Nat := BLOCK_LEN - 4

/-- Loop of `ShroomAESCipher::crypt_block`: the fuel `n` is the number of full
16-byte chunks of `buf` (`into_chunks::<U16>`).  Each full chunk is xored with
the next keystream block (`get_next_key` then `xor_in2out`); the final tail is
xored with a prefix of one more keystream block. -/
def cryptBlockGo (aes : Aes256) : Nat → List Nat → List Nat → List Nat
  | 0, key, buf => List.zipWith (fun a b => a ^^^ b) buf (aes.encrypt_block key)
  | n + 1, key, buf =>
      let k := aes.encrypt_block key
      List.zipWith (fun a b => a ^^^ b) (buf.take 16) k ++ cryptBlockGo aes n k (buf.drop 16)

/-- `ShroomAESCipher::crypt_block`. -/
def ShroomAESCipher.crypt_block (aes : Aes256) (key : List Nat) (buf : List Nat) : List Nat :=
  cryptBlockGo aes (buf.length / 16) key buf

/-- Loop of `ShroomAESCipher::crypt` over the 1460-byte middle chunks
(`into_chunks::<U1460>`): the fuel `n` is the number of full chunks; each chunk
and the final tail run `crypt_block` restarting from the same `iv`. -/
def cryptChunksGo (aes : Aes256) (iv : List Nat) : Nat → List Nat → List Nat
  | 0, buf => ShroomAESCipher.crypt_block aes iv buf
  | n + 1, buf =>
      ShroomAESCipher.crypt_block aes iv (buf.take BLOCK_LEN) ++
        cryptChunksGo aes iv n (buf.drop BLOCK_LEN)

/-- `ShroomAESCipher::crypt`: expand the round key into the 16-byte IV, crypt
a first chunk of `min(FIRST_BLOCK_LEN, n)` bytes, then the remaining buffer in
1460-byte chunks plus tail, every chunk restarting from the same IV. -/
def ShroomAESCipher.crypt (aes : Aes256) (key : List Nat) (buf : List Nat) : List Nat :=
  let iv := RoundKey.expand key
  let n := buf.length
  let first := min FIRST_BLOCK_LEN n
  let rest := buf.drop first
  ShroomAESCipher.crypt_block aes iv (buf.take first) ++
    cryptChunksGo aes iv (rest.length / BLOCK_LEN) rest

/-! ## Packet crypto (`crates/shroom-net/src/crypto/mod.rs`) -/

/-- `PACKET_HEADER_LEN`. -/
def PACKET_HEADER_LEN : Nat := 4

/-- `ShroomVersion::invert`: bitwise NOT of the 16-bit version (`!self.0`). -/
def ShroomVersion.invert (v : Nat) : Nat := v ^^^ 65535

/-- `CryptoContext`: the shared AES key and IG context.  The `aes_key` blob is
represented by the keyed block primitive it induces (built once in
`ShroomCrypto::new`). -/
structure CryptoContext where
  aes_cipher : Aes256
  ig_ctx : IgContext

/-- `ShroomCrypto`: per-direction crypto state.  The `shroom_aes_cipher` field
of the source is determined by `ctx.aes_key` and is folded into `ctx`. -/
structure ShroomCrypto where
  ctx : CryptoContext
  round_key : List Nat
  version : Nat

/-- `ShroomCrypto::update_round_key`. -/
def ShroomCrypto.update_round_key (c : ShroomCrypto) : ShroomCrypto :=
  { c with round_key := RoundKey.update c.ctx.ig_ctx c.round_key }

/-- `ShroomCrypto::encode_header`. -/
def ShroomCrypto.encode_header (c : ShroomCrypto) (length : Nat) : List Nat :=
  header.encode_header c.round_key length c.version

/-- `ShroomCrypto::decode_header`. -/
def ShroomCrypto.decode_header (c : ShroomCrypto) (hdr : List Nat) : Except NetError Nat :=
  header.decode_header hdr c.round_key c.version

/-- `ShroomCrypto::encrypt`: Shanda-encrypt, AES-xor with the current round
key, then advance the round key once.  The Shanda permutation (a free-standing
struct in the source) is passed as the `sh` interface. -/
def ShroomCrypto.encrypt (sh : ShandaCipher) (c : ShroomCrypto) (data : List Nat) :
    List Nat × ShroomCrypto :=
  let d1 := sh.encrypt data
  let d2 := ShroomAESCipher.crypt c.ctx.aes_cipher c.round_key d1
  (d2, c.update_round_key)

/-- `ShroomCrypto::decrypt`: AES-xor with the current round key, advance the
round key once, then Shanda-decrypt. -/
def ShroomCrypto.decrypt (sh : ShandaCipher) (c : ShroomCrypto) (data : List Nat) :
    List Nat × ShroomCrypto :=
  let d1 := ShroomAESCipher.crypt c.ctx.aes_cipher c.round_key data
  (sh.decrypt d1, c.update_round_key)

/-! ## Legacy frame codec (`crates/shroom-net/src/codec/legacy/codec.rs`,
`crates/shroom-net/src/codec/legacy/mod.rs`) -/

/-- `MAX_PACKET_LEN = i16::MAX = 32767`. -/
def MAX_PACKET_LEN : Nat := 32767

/-- `check_packet_len`. -/
def check_packet_len (len : Nat) : Except NetError Unit :=
  if len > MAX_PACKET_LEN then .error (.FrameSize len) else .ok ()

/-- `LegacyEncoder::encode`: length check, header from the pre-operation round
key (`len as u16`), payload appended then encrypted in place.  Returns the
bytes appended to `dst` and the updated crypto. -/
def LegacyEncoder.encode (sh : ShandaCipher) (c : ShroomCrypto) (item : List Nat) :
    Except NetError (List Nat × ShroomCrypto) :=
  match check_packet_len item.length with
  | .error e => .error e
  | .ok _ =>
      let hdr := c.encode_header (item.length % 65536)
      let r := ShroomCrypto.encrypt sh c item
      .ok (hdr ++ r.1, r.2)

/-- `LegacyDecoder::decode`: want-more on fewer than 4 buffered bytes; decode
and validate the header; want-more on an incomplete payload (buffer and crypto
state untouched); otherwise consume the header, split off the payload, decrypt
it and emit it.  Returns `(emitted item, remaining buffer, updated crypto)`. -/
def LegacyDecoder.decode (sh : ShandaCipher) (c : ShroomCrypto) (src : List Nat) :
    Except NetError (Option (List Nat) × List Nat × ShroomCrypto) :=
  if src.length < PACKET_HEADER_LEN then .ok (none, src, c)
  else
    match c.decode_header (src.take PACKET_HEADER_LEN) with
    | .error e => .error e
    | .ok length =>
        match check_packet_len length with
        | .error e => .error e
        | .ok _ =>
            if src.length < PACKET_HEADER_LEN + length then .ok (none, src, c)
            else
              let rest := src.drop PACKET_HEADER_LEN
              let packet_data := rest.take length
              let r := ShroomCrypto.decrypt sh c packet_data
              .ok (some r.1, rest.drop length, r.2)

/-! ## Handshake pairing (`crates/shroom-net/src/codec/legacy/mod.rs`,
`crates/shroom-net/src/codec/legacy/handshake.rs`) -/

/-- `Handshake`: version, subversion (≤ 2 bytes), the two IVs and the locale. -/
structure Handshake where
  version : Nat
  subversion : List Nat
  iv_enc : List Nat
  iv_dec : List Nat
  locale : Nat

/-- `LegacyCodec::create_client_codec`: encoder from `iv_enc` with the plain
version, decoder from `iv_dec` with the inverted version. -/
def LegacyCodec.create_client_codec (ctx : CryptoContext) (hs : Handshake) :
    ShroomCrypto × ShroomCrypto :=
  (⟨ctx, hs.iv_enc, hs.version⟩, ⟨ctx, hs.iv_dec, ShroomVersion.invert hs.version⟩)

/-- `LegacyCodec::create_server_codec`: encoder from `iv_dec` with the inverted
version, decoder from `iv_enc` with the plain version. -/
def LegacyCodec.create_server_codec (ctx : CryptoContext) (hs : Handshake) :
    ShroomCrypto × ShroomCrypto :=
  (⟨ctx, hs.iv_dec, ShroomVersion.invert hs.version⟩, ⟨ctx, hs.iv_enc, hs.version⟩)

/-! ### AES mode lemmas -/

lemma zipWith_xor_cancel (a : List Nat) : ∀ (k : List Nat), a.length ≤ k.length →
    List.zipWith (fun x y => x ^^^ y) (List.zipWith (fun x y => x ^^^ y) a k) k = a := by
  induction a with
  | nil => intro k _; simp
  | cons x xs ih =>
      intro k hk
      cases k with
      | nil => simp at hk
      | cons y ys =>
          simp only [List.zipWith_cons_cons]
          rw [Nat.xor_cancel_right]
          rw [ih ys (by simpa using hk)]

lemma zipWith_congr_prefix (f : Nat → Nat → Nat) :
    ∀ (a l l' : List Nat), l.take a.length = l'.take a.length →
      List.zipWith f a l = List.zipWith f a l' := by
  intro a
  induction a with
  | nil => intro l l' _; simp
  | cons x xs ih =>
      intro l l' h
      cases l with
      | nil =>
          cases l' with
          | nil => rfl
          | cons z zs => simp at h
      | cons y ys =>
          cases l' with
          | nil => simp at h
          | cons z zs =>
              simp only [List.length_cons, List.take_succ_cons, List.cons.injEq] at h
              simp only [List.zipWith_cons_cons, h.1]
              rw [ih ys zs h.2]

lemma zipWith_append_right (f : Nat → Nat → Nat) (a l ext : List Nat)
    (h : a.length ≤ l.length) :
    List.zipWith f a (l ++ ext) = List.zipWith f a l := by
  apply zipWith_congr_prefix
  exact List.take_append_of_le_length h

lemma cryptBlockGo_nil (aes : Aes256) : ∀ (n : Nat) (key : List Nat),
    cryptBlockGo aes n key [] = [] := by
  intro n
  induction n with
  | zero => intro key; simp [cryptBlockGo]
  | succ m ih => intro key; simp [cryptBlockGo, ih]

lemma cryptBlockGo_length (aes : Aes256) : ∀ (n : Nat) (key buf : List Nat),
    buf.length ≤ 16 * n + 16 → (cryptBlockGo aes n key buf).length = buf.length := by
  intro n
  induction n with
  | zero =>
      intro key buf h
      simp only [cryptBlockGo, List.length_zipWith, aes.encrypt_block_length]
      omega
  | succ m ih =>
      intro key buf h
      simp only [cryptBlockGo, List.length_append, List.length_zipWith,
        aes.encrypt_block_length, List.length_take, List.length_drop]
      rw [ih (aes.encrypt_block key) (buf.drop 16) (by simp [List.length_drop]; omega)]
      simp only [List.length_drop]
      omega

lemma cryptBlockGo_cancel (aes : Aes256) : ∀ (n : Nat) (key buf : List Nat),
    16 * n ≤ buf.length → buf.length ≤ 16 * n + 16 →
    cryptBlockGo aes n key (cryptBlockGo aes n key buf) = buf := by
  intro n
  induction n with
  | zero =>
      intro key buf _ h
      simp only [cryptBlockGo]
      exact zipWith_xor_cancel buf (aes.encrypt_block key)
        (by rw [aes.encrypt_block_length]; omega)
  | succ m ih =>
      intro key buf hlo hhi
      have h16 : 16 ≤ buf.length := by omega
      simp only [cryptBlockGo]
      have htk : (buf.take 16).length = 16 := by simp [List.length_take]; omega
      have hz : (List.zipWith (fun x y => x ^^^ y) (buf.take 16) (aes.encrypt_block key)).length
          = 16 := by
        simp [List.length_zipWith, aes.encrypt_block_length, htk]
      rw [List.take_left' hz, List.drop_left' hz]
      rw [zipWith_xor_cancel (buf.take 16) (aes.encrypt_block key)
        (by rw [aes.encrypt_block_length, htk])]
      rw [ih (aes.encrypt_block key) (buf.drop 16)
        (by simp [List.length_drop]; omega) (by simp [List.length_drop]; omega)]
      exact List.take_append_drop 16 buf

lemma crypt_block_length (aes : Aes256) (key buf : List Nat) :
    (ShroomAESCipher.crypt_block aes key buf).length = buf.length := by
  unfold ShroomAESCipher.crypt_block
  exact cryptBlockGo_length aes (buf.length / 16) key buf (by omega)

lemma crypt_block_cancel (aes : Aes256) (key buf : List Nat) :
    ShroomAESCipher.crypt_block aes key (ShroomAESCipher.crypt_block aes key buf) = buf := by
  unfold ShroomAESCipher.crypt_block
  rw [cryptBlockGo_length aes (buf.length / 16) key buf (by omega)]
  exact cryptBlockGo_cancel aes (buf.length / 16) key buf (by omega) (by omega)

lemma crypt_block_nil (aes : Aes256) (key : List Nat) :
    ShroomAESCipher.crypt_block aes key [] = [] := by
  unfold ShroomAESCipher.crypt_block
  simp [cryptBlockGo_nil]

lemma cryptChunksGo_nil (aes : Aes256) (iv : List Nat) : ∀ (n : Nat),
    cryptChunksGo aes iv n [] = [] := by
  intro n
  induction n with
  | zero => simp [cryptChunksGo, crypt_block_nil]
  | succ m ih => simp [cryptChunksGo, crypt_block_nil, ih]

lemma cryptChunksGo_length (aes : Aes256) (iv : List Nat) : ∀ (n : Nat) (buf : List Nat),
    (cryptChunksGo aes iv n buf).length = buf.length := by
  intro n
  induction n with
  | zero => intro buf; exact crypt_block_length aes iv buf
  | succ m ih =>
      intro buf
      simp only [cryptChunksGo, List.length_append, crypt_block_length, ih,
        List.length_take, List.length_drop]
      omega

lemma cryptChunksGo_cancel (aes : Aes256) (iv : List Nat) : ∀ (n : Nat) (buf : List Nat),
    cryptChunksGo aes iv n (cryptChunksGo aes iv n buf) = buf := by
  intro n
  induction n with
  | zero => intro buf; exact crypt_block_cancel aes iv buf
  | succ m ih =>
      intro buf
      by_cases hlen : BLOCK_LEN ≤ buf.length
      · simp only [cryptChunksGo]
        have htk : (ShroomAESCipher.crypt_block aes iv (buf.take BLOCK_LEN)).length
            = BLOCK_LEN := by
          rw [crypt_block_length]
          simp [List.length_take]
          omega
        rw [List.take_left' htk, List.drop_left' htk]
        rw [crypt_block_cancel, ih]
        exact List.take_append_drop BLOCK_LEN buf
      · push_neg at hlen
        simp only [cryptChunksGo]
        rw [List.take_of_length_le (le_of_lt hlen), List.drop_eq_nil_of_le (le_of_lt hlen)]
        rw [cryptChunksGo_nil, List.append_nil]
        have hle : (ShroomAESCipher.crypt_block aes iv buf).length ≤ BLOCK_LEN := by
          rw [crypt_block_length]; omega
        rw [List.take_of_length_le hle, List.drop_eq_nil_of_le hle]
        rw [cryptChunksGo_nil, List.append_nil]
        exact crypt_block_cancel aes iv buf

lemma crypt_length (aes : Aes256) (key buf : List Nat) :
    (ShroomAESCipher.crypt aes key buf).length = buf.length := by
  unfold ShroomAESCipher.crypt
  simp only [List.length_append, crypt_block_length, cryptChunksGo_length,
    List.length_take, List.length_drop]
  omega

lemma crypt_cancel (aes : Aes256) (key buf : List Nat) :
    ShroomAESCipher.crypt aes key (ShroomAESCipher.crypt aes key buf) = buf := by
  unfold ShroomAESCipher.crypt
  have hA : (ShroomAESCipher.crypt_block aes (RoundKey.expand key)
      (buf.take (min FIRST_BLOCK_LEN buf.length))).length = min FIRST_BLOCK_LEN buf.length := by
    rw [crypt_block_length]
    simp [List.length_take]
  have hB : (cryptChunksGo aes (RoundKey.expand key)
      ((buf.drop (min FIRST_BLOCK_LEN buf.length)).length / BLOCK_LEN)
      (buf.drop (min FIRST_BLOCK_LEN buf.length))).length
      = buf.length - min FIRST_BLOCK_LEN buf.length := by
    rw [cryptChunksGo_length]
    simp [List.length_drop]
  simp only
  rw [List.length_append, hA, hB]
  have hmin : min FIRST_BLOCK_LEN (min FIRST_BLOCK_LEN buf.length +
      (buf.length - min FIRST_BLOCK_LEN buf.length)) = min FIRST_BLOCK_LEN buf.length := by
    omega
  rw [hmin]
  rw [List.take_left' hA, List.drop_left' hA]
  rw [crypt_block_cancel]
  rw [cryptChunksGo_length]
  rw [cryptChunksGo_cancel]
  exact List.take_append_drop _ buf

/-! ## Claim C1: full encrypt/decrypt frame round-trip -/

set_option maxHeartbeats 800000 in
/-- C1: for every round key `k`, version `v` and payload `p` with
`|p| ≤ 32767`, encoding `p` through `LegacyEncoder` from state `(k, v)` yields
a frame whose header decodes (in a second `ShroomCrypto` in the same state) to
`|p|`, whose payload decrypts back to `p` with nothing left over, and both
sides advance their round key exactly once, to the same value. -/
theorem crypto_frame_roundtrip (sh : ShandaCipher) (ctx : CryptoContext)
    (k : List Nat) (v : Nat) (p : List Nat)
    (hk2 : k.getD 2 0 < 256) (hk3 : k.getD 3 0 < 256)
    (hv : v < 65536) (hp : p.length ≤ 32767) :
    ∃ frame : List Nat,
      LegacyEncoder.encode sh ⟨ctx, k, v⟩ p =
        .ok (frame, ⟨ctx, RoundKey.update ctx.ig_ctx k, v⟩) ∧
      ShroomCrypto.decode_header ⟨ctx, k, v⟩ (frame.take PACKET_HEADER_LEN) = .ok p.length ∧
      LegacyDecoder.decode sh ⟨ctx, k, v⟩ frame =
        .ok (some p, [], ⟨ctx, RoundKey.update ctx.ig_ctx k, v⟩) := by
  have hmod : p.length % 65536 = p.length := Nat.mod_eq_of_lt (by omega)
  have hct : (ShroomAESCipher.crypt ctx.aes_cipher k (sh.encrypt p)).length = p.length := by
    rw [crypt_length, sh.encrypt_length]
  have hhdr : (header.encode_header k p.length v).length = 4 := by
    rw [header.encode_header_bytes]
    rfl
  have hhdr' : (header.encode_header k p.length v).length = PACKET_HEADER_LEN := hhdr
  have hfl : (header.encode_header k p.length v ++
      ShroomAESCipher.crypt ctx.aes_cipher k (sh.encrypt p)).length = 4 + p.length := by
    rw [List.length_append, hhdr, hct]
  refine ⟨header.encode_header k p.length v ++
    ShroomAESCipher.crypt ctx.aes_cipher k (sh.encrypt p), ?_, ?_, ?_⟩
  · simp only [LegacyEncoder.encode, check_packet_len, MAX_PACKET_LEN]
    rw [if_neg (by omega)]
    simp only [ShroomCrypto.encrypt, ShroomCrypto.encode_header,
      ShroomCrypto.update_round_key, hmod]
  · simp only [ShroomCrypto.decode_header]
    rw [List.take_left' hhdr']
    exact decode_encode_header_ok k p.length v hk2 hk3 (by omega) hv
  · simp only [LegacyDecoder.decode, PACKET_HEADER_LEN, hfl]
    rw [if_neg (by omega)]
    simp only [ShroomCrypto.decode_header]
    rw [List.take_left' hhdr]
    rw [decode_encode_header_ok k p.length v hk2 hk3 (by omega) hv]
    simp only [check_packet_len, MAX_PACKET_LEN]
    rw [if_neg (by omega)]
    rw [if_neg (by omega)]
    rw [List.drop_left' hhdr]
    rw [List.take_of_length_le (le_of_eq hct)]
    simp only [ShroomCrypto.decrypt]
    rw [crypt_cancel, sh.decrypt_encrypt]
    rw [List.drop_eq_nil_of_le (le_of_eq hct)]
    simp only [ShroomCrypto.update_round_key]

/-- A concrete crypto context used by witnesses. -/
def testCtx : CryptoContext := ⟨testAes, testIg⟩

/-- Witness for C1 at a concrete key, version and payload. -/
theorem crypto_frame_roundtrip_witness :
    (([1, 2, 3, 4] : List Nat).getD 2 0 < 256 ∧ ([1, 2, 3, 4] : List Nat).getD 3 0 < 256 ∧
      (95 : Nat) < 65536 ∧ ([10, 20, 30] : List Nat).length ≤ 32767) ∧
    (∃ frame : List Nat,
      LegacyEncoder.encode idShanda ⟨testCtx, [1, 2, 3, 4], 95⟩ [10, 20, 30] =
        .ok (frame, ⟨testCtx, RoundKey.update testCtx.ig_ctx [1, 2, 3, 4], 95⟩) ∧
      ShroomCrypto.decode_header ⟨testCtx, [1, 2, 3, 4], 95⟩ (frame.take PACKET_HEADER_LEN) =
        .ok ([10, 20, 30] : List Nat).length ∧
      LegacyDecoder.decode idShanda ⟨testCtx, [1, 2, 3, 4], 95⟩ frame =
        .ok (some [10, 20, 30], [], ⟨testCtx, RoundKey.update testCtx.ig_ctx [1, 2, 3, 4], 95⟩)) :=
  ⟨⟨by decide, by decide, by decide, by decide⟩,
    crypto_frame_roundtrip idShanda testCtx [1, 2, 3, 4] 95 [10, 20, 30]
      (by decide) (by decide) (by decide) (by decide)⟩

/-! ## Claim C3: handshake cipher pairing -/

/-- C3: for every crypto context and handshake, the client codec's encoder is
built from `iv_enc` with the plain version and its decoder from `iv_dec` with
the bitwise-NOT version, the server codec is the mirror image, and the client
encoder state equals the server decoder state and vice versa. -/
theorem handshake_cipher_pairing (ctx : CryptoContext) (hs : Handshake) :
    (LegacyCodec.create_client_codec ctx hs).1 = ⟨ctx, hs.iv_enc, hs.version⟩ ∧
    (LegacyCodec.create_client_codec ctx hs).2 =
      ⟨ctx, hs.iv_dec, ShroomVersion.invert hs.version⟩ ∧
    (LegacyCodec.create_server_codec ctx hs).1 =
      ⟨ctx, hs.iv_dec, ShroomVersion.invert hs.version⟩ ∧
    (LegacyCodec.create_server_codec ctx hs).2 = ⟨ctx, hs.iv_enc, hs.version⟩ ∧
    (LegacyCodec.create_client_codec ctx hs).1 = (LegacyCodec.create_server_codec ctx hs).2 ∧
    (LegacyCodec.create_client_codec ctx hs).2 = (LegacyCodec.create_server_codec ctx hs).1 :=
  ⟨rfl, rfl, rfl, rfl, rfl, rfl⟩

/-! ## Claim C4: the AES mode as a chunked keystream

Claim-side definitions, following the claim's wording: a keystream is obtained
by repeatedly AES-encrypting the IV in 16-byte blocks (with a short tail); the
buffer is covered by one first chunk of `min(1456, n)` bytes and successive
1460-byte chunks plus a tail, and every chunk's keystream restarts from the
same IV. -/

/-- The successive keystream blocks `E(key), E(E(key)), …` (`n` of them). -/
def ivChain (aes : Aes256) (key : List Nat) : Nat → List (List Nat)
  | 0 => []
  | n + 1 =>
      let k := aes.encrypt_block key
      k :: ivChain aes k n

/-- The keystream for one chunk of `m` bytes: enough 16-byte blocks
(including a short tail block), truncated to `m`. -/
def blockKeystream (aes : Aes256) (iv : List Nat) (m : Nat) : List Nat :=
  ((ivChain aes iv (m / 16 + 1)).flatten).take m

/-- The keystream covering `m` remaining bytes in 1460-byte chunks plus tail;
the fuel is the number of full 1460-byte chunks.  Every chunk restarts
from `iv`. -/
def chunksKeystreamGo (aes : Aes256) (iv : List Nat) : Nat → Nat → List Nat
  | 0, m => blockKeystream aes iv m
  | f + 1, m => blockKeystream aes iv BLOCK_LEN ++ chunksKeystreamGo aes iv f (m - BLOCK_LEN)

/-- The whole-payload keystream per the claim: a first chunk of
`min(1456, n)` bytes, then 1460-byte chunks plus tail, each restarting
from `iv`. -/
def specKeystream (aes : Aes256) (iv : List Nat) (n : Nat) : List Nat :=
  let first := min FIRST_BLOCK_LEN n
  blockKeystream aes iv first ++
    chunksKeystreamGo aes iv ((n - first) / BLOCK_LEN) (n - first)

lemma ivChain_flatten_length (aes : Aes256) : ∀ (n : Nat) (key : List Nat),
    ((ivChain aes key n).flatten).length = 16 * n := by
  intro n
  induction n with
  | zero => intro key; simp [ivChain]
  | succ m ih =>
      intro key
      simp only [ivChain, List.flatten_cons, List.length_append,
        aes.encrypt_block_length, ih]
      omega

lemma blockKeystream_length (aes : Aes256) (iv : List Nat) (m : Nat) :
    (blockKeystream aes iv m).length = m := by
  simp only [blockKeystream, List.length_take, ivChain_flatten_length]
  omega

lemma zipWith_take_self (f : Nat → Nat → Nat) (a l : List Nat) :
    List.zipWith f a (l.take a.length) = List.zipWith f a l := by
  apply zipWith_congr_prefix
  rw [List.take_take]
  simp

lemma ivChain_succ (aes : Aes256) (key : List Nat) (n : Nat) :
    ivChain aes key (n + 1) = aes.encrypt_block key :: ivChain aes (aes.encrypt_block key) n :=
  rfl

lemma cryptBlockGo_eq_zip (aes : Aes256) : ∀ (n : Nat) (key buf : List Nat),
    16 * n ≤ buf.length → buf.length ≤ 16 * n + 16 →
    cryptBlockGo aes n key buf =
      List.zipWith (fun a b => a ^^^ b) buf ((ivChain aes key (n + 1)).flatten) := by
  intro n
  induction n with
  | zero =>
      intro key buf _ _
      simp [cryptBlockGo, ivChain]
  | succ m ih =>
      intro key buf hlo hhi
      have h16 : 16 ≤ buf.length := by omega
      have htk : (buf.take 16).length = 16 := by simp [List.length_take]; omega
      simp only [cryptBlockGo]
      rw [ivChain_succ, List.flatten_cons]
      conv_rhs => rw [← List.take_append_drop 16 buf]
      rw [List.zipWith_append _ _ _ _ _ (by rw [htk, aes.encrypt_block_length])]
      rw [ih (aes.encrypt_block key) (buf.drop 16)
        (by simp [List.length_drop]; omega) (by simp [List.length_drop]; omega)]

lemma crypt_block_eq_zip (aes : Aes256) (key buf : List Nat) :
    ShroomAESCipher.crypt_block aes key buf =
      List.zipWith (fun a b => a ^^^ b) buf (blockKeystream aes key buf.length) := by
  unfold ShroomAESCipher.crypt_block blockKeystream
  rw [cryptBlockGo_eq_zip aes (buf.length / 16) key buf (by omega) (by omega)]
  rw [← zipWith_take_self (fun a b => a ^^^ b) buf ((ivChain aes key (buf.length / 16 + 1)).flatten)]

lemma cryptChunksGo_eq_zip (aes : Aes256) (iv : List Nat) : ∀ (f : Nat) (rest : List Nat),
    BLOCK_LEN * f ≤ rest.length →
    cryptChunksGo aes iv f rest =
      List.zipWith (fun a b => a ^^^ b) rest (chunksKeystreamGo aes iv f rest.length) := by
  intro f
  induction f with
  | zero =>
      intro rest _
      simp only [cryptChunksGo, chunksKeystreamGo]
      exact crypt_block_eq_zip aes iv rest
  | succ m ih =>
      intro rest hlo
      simp only [BLOCK_LEN] at hlo
      have hbl : 1460 ≤ rest.length := by omega
      have htk : (rest.take BLOCK_LEN).length = BLOCK_LEN := by
        simp only [BLOCK_LEN, List.length_take]
        omega
      simp only [cryptChunksGo, chunksKeystreamGo]
      rw [crypt_block_eq_zip aes iv (rest.take BLOCK_LEN), htk]
      conv_rhs => rw [← List.take_append_drop BLOCK_LEN rest]
      rw [List.zipWith_append _ _ _ _ _ (by rw [htk, blockKeystream_length])]
      rw [ih (rest.drop BLOCK_LEN)
        (by simp only [BLOCK_LEN, List.length_drop]; omega)]
      simp only [BLOCK_LEN, List.length_drop]
      rw [List.take_append_drop]

/-- C4: the AES-256 mode covers the buffer with one first chunk of
`min(1456, n)` bytes and successive 1460-byte chunks plus a tail; within each
chunk the bytes are xored with a keystream of repeated AES encryptions of the
IV in 16-byte blocks (short tail included); every chunk restarts from the same
IV, which is the 4-byte round key repeated cyclically to 16 bytes. -/
theorem aes_mode_chunked_keystream (aes : Aes256) (k : List Nat) (buf : List Nat) :
    RoundKey.expand k =
      [k.getD 0 0, k.getD 1 0, k.getD 2 0, k.getD 3 0] ++
      [k.getD 0 0, k.getD 1 0, k.getD 2 0, k.getD 3 0] ++
      [k.getD 0 0, k.getD 1 0, k.getD 2 0, k.getD 3 0] ++
      [k.getD 0 0, k.getD 1 0, k.getD 2 0, k.getD 3 0] ∧
    ShroomAESCipher.crypt aes k buf =
      List.zipWith (fun a b => a ^^^ b) buf
        (specKeystream aes (RoundKey.expand k) buf.length) := by
  constructor
  · rfl
  · unfold ShroomAESCipher.crypt specKeystream
    simp only
    generalize hn : buf.length = n
    have hfirst : min FIRST_BLOCK_LEN n ≤ n := min_le_right _ _
    have htk : (buf.take (min FIRST_BLOCK_LEN n)).length = min FIRST_BLOCK_LEN n := by
      simp [List.length_take, hn]
    have hdr : (buf.drop (min FIRST_BLOCK_LEN n)).length = n - min FIRST_BLOCK_LEN n := by
      simp [List.length_drop, hn]
    rw [crypt_block_eq_zip aes (RoundKey.expand k), htk]
    rw [cryptChunksGo_eq_zip aes (RoundKey.expand k) _ _
      (by rw [hdr]; simp only [BLOCK_LEN]; omega)]
    rw [hdr]
    conv_rhs => rw [← List.take_append_drop (min FIRST_BLOCK_LEN n) buf]
    rw [List.zipWith_append _ _ _ _ _ (by rw [htk, blockKeystream_length])]

/-! ## Claim C5: frame length validation -/

/-- C5: `check_packet_len` accepts lengths up to `MAX_PACKET_LEN = 32767` and
rejects larger ones with `FrameSize(len)`; the encoder rejects payloads longer
than 32767 with `FrameSize`; a frame whose decoded header length is 32768
makes the decoder return `FrameSize 32768`. -/
theorem frame_length_validation :
    (∀ len : Nat, len ≤ MAX_PACKET_LEN → check_packet_len len = .ok ()) ∧
    (∀ len : Nat, len > MAX_PACKET_LEN → check_packet_len len = .error (.FrameSize len)) ∧
    (∀ (sh : ShandaCipher) (c : ShroomCrypto) (p : List Nat), p.length > 32767 →
      LegacyEncoder.encode sh c p = .error (.FrameSize p.length)) ∧
    (∀ (sh : ShandaCipher) (ctx : CryptoContext) (k : List Nat) (v : Nat) (rest : List Nat),
      k.getD 2 0 < 256 → k.getD 3 0 < 256 → v < 65536 →
      LegacyDecoder.decode sh ⟨ctx, k, v⟩ (header.encode_header k 32768 v ++ rest) =
        .error (.FrameSize 32768)) := by
  refine ⟨?_, ?_, ?_, ?_⟩
  · intro len h
    simp only [check_packet_len, MAX_PACKET_LEN] at *
    rw [if_neg (by omega)]
  · intro len h
    simp only [check_packet_len, MAX_PACKET_LEN] at *
    rw [if_pos (by omega)]
  · intro sh c p h
    simp only [LegacyEncoder.encode, check_packet_len, MAX_PACKET_LEN]
    rw [if_pos (by omega)]
  · intro sh ctx k v rest hk2 hk3 hv
    have hhdr : (header.encode_header k 32768 v).length = 4 := by
      rw [header.encode_header_bytes]
      rfl
    have hfl : (header.encode_header k 32768 v ++ rest).length = 4 + rest.length := by
      rw [List.length_append, hhdr]
    simp only [LegacyDecoder.decode, PACKET_HEADER_LEN, hfl]
    rw [if_neg (by omega)]
    simp only [ShroomCrypto.decode_header]
    rw [List.take_left' hhdr]
    rw [decode_encode_header_ok k 32768 v hk2 hk3 (by omega) hv]
    simp [check_packet_len, MAX_PACKET_LEN]

/-- Witness for C5: the boundary length 32767 passes, 32768 is rejected by the
length check, by the encoder and by the decoder. -/
theorem frame_length_validation_witness :
    check_packet_len 32767 = .ok () ∧
    check_packet_len 32768 = .error (.FrameSize 32768) ∧
    LegacyEncoder.encode idShanda ⟨testCtx, [1, 2, 3, 4], 95⟩ (List.replicate 32768 0) =
      .error (.FrameSize (List.replicate (32768 : Nat) (0 : Nat)).length) ∧
    LegacyDecoder.decode idShanda ⟨testCtx, [82, 48, 120, 232], 83⟩
        (header.encode_header [82, 48, 120, 232] 32768 83 ++ []) =
      .error (.FrameSize 32768) :=
  ⟨frame_length_validation.1 32767 (by decide),
    frame_length_validation.2.1 32768 (by decide),
    frame_length_validation.2.2.1 idShanda ⟨testCtx, [1, 2, 3, 4], 95⟩
      (List.replicate 32768 0) (by rw [List.length_replicate]; omega),
    frame_length_validation.2.2.2 idShanda testCtx [82, 48, 120, 232] 83 []
      (by decide) (by decide) (by decide)⟩

/-! ## Connection event loop (`crates/shroom-net/src/server/server_conn.rs`) -/

/-- `ServerHandleResult`. -/
inductive ServerHandleResult where
  | Ok
  | Migrate
  | Pong
  deriving DecidableEq, Repr

/-- Outcome of one `handle_msg` invocation: a `ServerHandleResult`, or a
handler error propagated by `?` (the generic `H::Error`, opaque here). -/
inductive HandlerOut where
  | res (r : ServerHandleResult)
  | err
  deriving DecidableEq, Repr

/-- `ShroomConnEvent` (payloads abstracted away). -/
inductive ShroomConnEvent where
  | IncomingPacket
  | Message
  | Ping
  | Tick
  deriving DecidableEq, Repr

/-- One fired branch of the biased `select!` in `ServerConnCtx::exec`,
together with the handler's response for that iteration.  The `message`
constructor covers both the `rx.recv()` and the `handler.recv_msg()` arms
(both deliver `ShroomConnEvent::Message`). -/
inductive SelectBranch where
  | packet (out : HandlerOut)
  | message (out : HandlerOut)
  | tick (out : HandlerOut)
  | ping (out : HandlerOut)
  deriving DecidableEq, Repr

/-- The handler response carried by a branch. -/
def SelectBranch.out : SelectBranch → HandlerOut
  | .packet o => o
  | .message o => o
  | .tick o => o
  | .ping o => o

/-- Whether the branch is the ping-interval arm. -/
def SelectBranch.isPing : SelectBranch → Bool
  | .ping _ => true
  | _ => false

/-- How `exec` terminates: `Ok(migrating)`, a `NetError`
(e.g. `PingTimeout`), or an opaque handler error. -/
inductive ExecExit where
  | finished (migrating : Bool)
  | netError (e : NetError)
  | handlerError
  deriving DecidableEq, Repr

/-- Effect of one loop iteration: continue with a new pending-ping flag, or
exit. -/
inductive StepOut where
  | cont (pending_ping : Bool)
  | exit (e : ExecExit)
  deriving DecidableEq, Repr

/-- The `match res` at the bottom of the loop: `Ok` continues, `Migrate`
returns `Ok(true)`, `Pong` clears the pending-ping flag; a handler error
propagates out via `?`. -/
def applyResult (pending_ping : Bool) : HandlerOut → StepOut
  | .res .Ok => .cont pending_ping
  | .res .Migrate => .exit (.finished true)
  | .res .Pong => .cont false
  | .err => .exit .handlerError

/-- One iteration of the select loop.  On the ping arm, a set pending-ping
flag exits with `PingTimeout`; otherwise the flag is set before the handler
runs with `ShroomConnEvent::Ping`. -/
def execStep (pending_ping : Bool) : SelectBranch → StepOut
  | .packet o => applyResult pending_ping o
  | .message o => applyResult pending_ping o
  | .tick o => applyResult pending_ping o
  | .ping o => if pending_ping then .exit (.netError .PingTimeout) else applyResult true o

/-- The event `handle_msg` receives in one iteration (`none` when the
iteration exits before invoking the handler). -/
def deliveredEvent (pending_ping : Bool) : SelectBranch → Option ShroomConnEvent
  | .packet _ => some .IncomingPacket
  | .message _ => some .Message
  | .tick _ => some .Tick
  | .ping _ => if pending_ping then none else some .Ping

/-- State of the loop after consuming a finite prefix of fired branches. -/
inductive RunState where
  | more (pending_ping : Bool)
  | done (e : ExecExit)
  deriving DecidableEq, Repr

/-- `ServerConnCtx::exec` over a finite list of fired branches, starting from
a pending-ping flag (fresh connections start with `pending_ping = false`). -/
def execRun : Bool → List SelectBranch → RunState
  | p, [] => .more p
  | p, b :: rest =>
      match execStep p b with
      | .cont q => execRun q rest
      | .exit e => .done e

lemma execRun_benign_prefix : ∀ (evs rest : List SelectBranch),
    (∀ t ∈ evs, t.isPing = false ∧ (t.out = .res .Ok ∨ t.out = .res .Pong)) →
    execRun false (evs ++ rest) = execRun false rest := by
  intro evs
  induction evs with
  | nil => intro rest _; rfl
  | cons t ts ih =>
      intro rest h
      have ht := h t (by simp)
      have hstep : execStep false t = .cont false := by
        cases t with
        | ping o => simp [SelectBranch.isPing] at ht
        | packet o =>
            rcases ht.2 with h1 | h1 <;>
              simp only [SelectBranch.out] at h1 <;> simp [execStep, applyResult, h1]
        | message o =>
            rcases ht.2 with h1 | h1 <;>
              simp only [SelectBranch.out] at h1 <;> simp [execStep, applyResult, h1]
        | tick o =>
            rcases ht.2 with h1 | h1 <;>
              simp only [SelectBranch.out] at h1 <;> simp [execStep, applyResult, h1]
      simp only [List.cons_append, execRun, hstep]
      exact ih rest (fun t ht' => h t (by simp [ht']))

/-- C6: the ping state machine of the connection loop.  (1) A ping tick with
the pending-ping flag set exits with `PingTimeout`.  (2) Otherwise the tick
delivers a `Ping` event with the flag set first (an `Ok` handler leaves it
set), and never itself times out.  (3) A handler result of `Pong` on any
delivering branch clears the flag.  (4) `applyResult` never produces
`PingTimeout`, and (5) after a `Pong` followed by ping-free benign traffic,
the next ping tick proceeds with a cleared flag (no timeout). -/
theorem ping_timeout_behavior :
    (∀ (o : HandlerOut) (rest : List SelectBranch),
      execRun true (.ping o :: rest) = .done (.netError .PingTimeout)) ∧
    (∀ o : HandlerOut, deliveredEvent false (.ping o) = some .Ping ∧
      execStep false (.ping o) = applyResult true o ∧
      execStep false (.ping (.res .Ok)) = .cont true ∧
      execStep false (.ping o) ≠ .exit (.netError .PingTimeout)) ∧
    (∀ p : Bool, execStep p (.packet (.res .Pong)) = .cont false ∧
      execStep p (.message (.res .Pong)) = .cont false ∧
      execStep p (.tick (.res .Pong)) = .cont false) ∧
    (∀ (p : Bool) (o : HandlerOut), applyResult p o ≠ .exit (.netError .PingTimeout)) ∧
    (∀ (p : Bool) (s : SelectBranch) (evs : List SelectBranch) (o : HandlerOut)
        (rest : List SelectBranch),
      s.isPing = false → s.out = .res .Pong →
      (∀ t ∈ evs, t.isPing = false ∧ (t.out = .res .Ok ∨ t.out = .res .Pong)) →
      execRun p (s :: (evs ++ .ping o :: rest)) = execRun false (.ping o :: rest)) := by
  have happly : ∀ (p : Bool) (o : HandlerOut), applyResult p o ≠ .exit (.netError .PingTimeout) := by
    intro p o
    cases o with
    | err => simp [applyResult]
    | res r => cases r <;> simp [applyResult]
  refine ⟨?_, ?_, ?_, happly, ?_⟩
  · intro o rest
    simp [execRun, execStep]
  · intro o
    refine ⟨by simp [deliveredEvent], by simp [execStep], by simp [execStep, applyResult], ?_⟩
    simp only [execStep, if_neg (by simp : ¬ false = true)]
    exact happly true o
  · intro p
    exact ⟨by simp [execStep, applyResult], by simp [execStep, applyResult],
      by simp [execStep, applyResult]⟩
  · intro p s evs o rest hping hout hevs
    have hstep : execStep p s = .cont false := by
      cases s with
      | ping o' => simp [SelectBranch.isPing] at hping
      | packet o' => simp only [SelectBranch.out] at hout; simp [execStep, applyResult, hout]
      | message o' => simp only [SelectBranch.out] at hout; simp [execStep, applyResult, hout]
      | tick o' => simp only [SelectBranch.out] at hout; simp [execStep, applyResult, hout]
    simp only [execRun, hstep]
    exact execRun_benign_prefix evs (.ping o :: rest) hevs

/-- Witness for C6: a `Pong` response followed by an ordinary tick leaves the
flag cleared, so the next ping tick does not time out (while a bare double
ping does). -/
theorem ping_timeout_behavior_witness :
    (SelectBranch.packet (.res .Pong)).isPing = false ∧
    (SelectBranch.packet (.res .Pong)).out = .res .Pong ∧
    execRun false
        (.packet (.res .Pong) :: ([.tick (.res .Ok)] ++ .ping (.res .Ok) :: [])) =
      execRun false [.ping (.res .Ok)] :=
  ⟨by decide, by decide,
    ping_timeout_behavior.2.2.2.2 false (.packet (.res .Pong)) [.tick (.res .Ok)]
      (.res .Ok) [] (by decide) (by decide) (by decide)⟩

/-! ## Room broadcast (`crates/shroom-net/src/server/room.rs`) -/

/-- `RoomSet::broadcast`: publish `(None, msg)` on the broadcast channel —
modelled by its effect on one subscriber's pending queue. -/
def RoomSet.broadcast {Key Msg : Type} (q : List (Option Key × Msg)) (msg : Msg) :
    List (Option Key × Msg) :=
  q ++ [(none, msg)]

/-- `RoomSet::broadcast_filter`: publish `(Some(src), msg)` on the broadcast
channel — modelled by its effect on one subscriber's pending queue. -/
def RoomSet.broadcast_filter {Key Msg : Type} (q : List (Option Key × Msg)) (msg : Msg)
    (src : Key) : List (Option Key × Msg) :=
  q ++ [(some src, msg)]

/-- `RoomStream`: the merged per-joiner receiver — its own key, the pending
direct-channel messages (`rx_conn`) and the pending broadcast messages
(`rx_br`). -/
structure RoomStream (Key Msg : Type) where
  id : Key
  rx_conn : List Msg
  rx_br : List (Option Key × Msg)

/-- The broadcast loop inside `RoomStream::poll_next`: take the next
broadcast, yielding unfiltered messages and messages whose source differs
from `id`, skipping messages filtered for this client. -/
def pollBrLoop {Key Msg : Type} [DecidableEq Key] (id : Key) :
    List (Option Key × Msg) → Option (Msg × List (Option Key × Msg))
  | [] => none
  | (src, msg) :: rest =>
      match src with
      | none => some (msg, rest)
      | some s => if s ≠ id then some (msg, rest) else pollBrLoop id rest

/-- `RoomStream::poll_next`: the direct channel is polled first; otherwise the
broadcast receiver is drained through the filtering loop. -/
def RoomStream.poll_next {Key Msg : Type} [DecidableEq Key] (s : RoomStream Key Msg) :
    Option (Msg × RoomStream Key Msg) :=
  match s.rx_conn with
  | m :: r => some (m, { s with rx_conn := r })
  | [] => (pollBrLoop s.id s.rx_br).map (fun p => (p.1, { s with rx_br := p.2 }))

/-- Repeated `poll_next` until exhaustion (the fuel bounds the number of
yielded items; each poll consumes at least one queue element). -/
def drainGo {Key Msg : Type} [DecidableEq Key] : Nat → RoomStream Key Msg → List Msg
  | 0, _ => []
  | n + 1, s =>
      match s.poll_next with
      | none => []
      | some (m, s') => m :: drainGo n s'

/-- Everything the merged receiver yields. -/
def RoomStream.drain {Key Msg : Type} [DecidableEq Key] (s : RoomStream Key Msg) : List Msg :=
  drainGo (s.rx_conn.length + s.rx_br.length) s

/-- Claim-side definition: the broadcasts a handle with key `id` receives are
exactly those whose source key differs from `Some(id)`. -/
def receivedBroadcasts {Key Msg : Type} [DecidableEq Key] (id : Key)
    (q : List (Option Key × Msg)) : List Msg :=
  (q.filter (fun e => decide (e.1 ≠ some id))).map Prod.snd

lemma drainGo_br {Key Msg : Type} [DecidableEq Key] (id : Key) :
    ∀ (q : List (Option Key × Msg)) (n : Nat), q.length ≤ n →
      drainGo n ⟨id, [], q⟩ = receivedBroadcasts id q := by
  intro q
  induction q with
  | nil =>
      intro n _
      cases n with
      | zero => rfl
      | succ m => simp [drainGo, RoomStream.poll_next, pollBrLoop, receivedBroadcasts]
  | cons e rest ih =>
      intro n hn
      obtain ⟨src, m⟩ := e
      cases n with
      | zero => simp at hn
      | succ n' =>
          cases src with
          | none =>
              simp only [drainGo, RoomStream.poll_next, pollBrLoop, Option.map]
              rw [ih n' (by simpa using hn)]
              simp [receivedBroadcasts]
          | some s =>
              by_cases hs : s = id
              · subst hs
                have hpoll : RoomStream.poll_next (⟨s, [], (some s, m) :: rest⟩ :
                    RoomStream Key Msg) = RoomStream.poll_next ⟨s, [], rest⟩ := by
                  simp [RoomStream.poll_next, pollBrLoop]
                simp only [drainGo, hpoll]
                have := ih (n' + 1) (by simpa using Nat.le_succ_of_le (by simpa using hn))
                simp only [drainGo] at this
                rw [this]
                simp [receivedBroadcasts]
              · simp only [drainGo, RoomStream.poll_next, pollBrLoop, if_pos
                  (by simpa using hs), Option.map]
                rw [ih n' (by simpa using hn)]
                simp [receivedBroadcasts, hs]

lemma drainGo_conn {Key Msg : Type} [DecidableEq Key] (id : Key) :
    ∀ (conn : List Msg) (n : Nat) (q : List (Option Key × Msg)),
      conn.length + q.length ≤ n →
      drainGo n ⟨id, conn, q⟩ = conn ++ receivedBroadcasts id q := by
  intro conn
  induction conn with
  | nil =>
      intro n q hn
      simpa using drainGo_br id q n (by simpa using hn)
  | cons c cs ih =>
      intro n q hn
      cases n with
      | zero => simp at hn
      | succ n' =>
          simp only [drainGo, RoomStream.poll_next]
          rw [ih n' q (by simp at hn; omega)]
          simp

/-- C8: a handle's merged receiver yields exactly its direct messages followed
by the broadcasts whose source differs from its own key; hence a
`broadcast_filter(msg, src)` publication `(Some(src), msg)` is received by
every handle whose key differs from `src` and skipped by the source handle,
while a `broadcast` publication `(None, msg)` is received by all handles. -/
theorem room_broadcast_filtering (Key Msg : Type) [DecidableEq Key] :
    (∀ s : RoomStream Key Msg,
      s.drain = s.rx_conn ++ receivedBroadcasts s.id s.rx_br) ∧
    (∀ (id : Key) (conn : List Msg) (q : List (Option Key × Msg)) (msg : Msg) (src : Key),
      RoomStream.drain ⟨id, conn, RoomSet.broadcast_filter q msg src⟩ =
        RoomStream.drain ⟨id, conn, q⟩ ++ (if src ≠ id then [msg] else [])) ∧
    (∀ (id : Key) (conn : List Msg) (q : List (Option Key × Msg)) (msg : Msg),
      RoomStream.drain ⟨id, conn, RoomSet.broadcast q msg⟩ =
        RoomStream.drain ⟨id, conn, q⟩ ++ [msg]) := by
  have hdrain : ∀ s : RoomStream Key Msg,
      s.drain = s.rx_conn ++ receivedBroadcasts s.id s.rx_br := by
    intro s
    obtain ⟨id, conn, q⟩ := s
    exact drainGo_conn id conn (conn.length + q.length) q le_rfl
  refine ⟨hdrain, ?_, ?_⟩
  · intro id conn q msg src
    rw [hdrain, hdrain]
    simp only [RoomSet.broadcast_filter, receivedBroadcasts, List.filter_append,
      List.map_append, List.append_assoc]
    by_cases hs : src = id
    · subst hs
      simp [List.filter]
    · simp [List.filter, hs]
  · intro id conn q msg
    rw [hdrain, hdrain]
    simp only [RoomSet.broadcast, receivedBroadcasts, List.filter_append,
      List.map_append, List.append_assoc]
    simp [List.filter]

/-! ## Migration registry (`crates/shroom-net/src/session/migration.rs`)

`Instant` is modelled as a `Nat` time-point; operations that internally call
`Instant::now()` take the current time as an explicit parameter. -/

/-- `MigrationContext`: the stored value and its deadline. -/
structure MigrationContext (V : Type) where
  data : V
  timeout : Nat

/-- `MigrationContext::new`: deadline `now + timeout_dur`. -/
def MigrationContext.new {V : Type} (data : V) (timeout_dur now : Nat) : MigrationContext V :=
  ⟨data, now + timeout_dur⟩

/-- `MigrationContext::is_timeout`: `self.timeout < now` (strict). -/
def MigrationContext.is_timeout {V : Type} (ctx : MigrationContext V) (now : Nat) : Bool :=
  ctx.timeout < now

/-- `MigrationManager`: TTL duration and the pending map (the `DashMap`
modelled as an association list with unique keys maintained by `insert`). -/
structure MigrationManager (K V : Type) where
  timeout : Nat
  pending : List (K × MigrationContext V)

/-- `MigrationManager::try_take`: remove the entry unconditionally
(`DashMap::remove`), then return its value only if it has not timed out. -/
def MigrationManager.try_take {K V : Type} [DecidableEq K] (m : MigrationManager K V)
    (now : Nat) (k : K) : Option V × MigrationManager K V :=
  match m.pending.find? (fun e => decide (e.1 = k)) with
  | none => (none, m)
  | some e =>
      let m' := { m with pending := m.pending.filter (fun e2 => decide (e2.1 ≠ k)) }
      if e.2.is_timeout now then (none, m') else (some e.2.data, m')

/-- `MigrationManager::insert`: store `(value, now + timeout)`, replacing any
entry under the same key (`DashMap::insert`). -/
def MigrationManager.insert {K V : Type} [DecidableEq K] (m : MigrationManager K V)
    (now : Nat) (k : K) (data : V) : MigrationManager K V :=
  { m with pending :=
      (k, MigrationContext.new data m.timeout now) ::
        m.pending.filter (fun e => decide (e.1 ≠ k)) }

lemma find?_filter_ne {K α : Type} [DecidableEq K] (k : K) (l : List (K × α)) :
    (l.filter (fun e => decide (e.1 ≠ k))).find? (fun e => decide (e.1 = k)) = none := by
  rw [List.find?_eq_none]
  intro x hx
  have hmem := (List.mem_filter.mp hx).2
  simp only [decide_eq_true_eq] at hmem
  simp only [decide_eq_true_eq]
  exact hmem

/-- C9: after `insert(k, v)` at time `t_ins`, a `try_take(k)` at or before the
deadline `t_ins + TTL` returns `Some(v)`; a second `try_take(k)` (at any time)
returns `None`; and once the deadline has passed, `try_take(k)` returns
`None`. -/
theorem migration_insert_take (K V : Type) [DecidableEq K] (m : MigrationManager K V)
    (k : K) (v : V) (t_ins t_take t2 : Nat) :
    (t_take ≤ t_ins + m.timeout →
      ((m.insert t_ins k v).try_take t_take k).1 = some v ∧
      ((((m.insert t_ins k v).try_take t_take k).2).try_take t2 k).1 = none) ∧
    (t_ins + m.timeout < t_take →
      ((m.insert t_ins k v).try_take t_take k).1 = none) := by
  have hfind : ((m.insert t_ins k v).pending).find? (fun e => decide (e.1 = k)) =
      some (k, MigrationContext.new v m.timeout t_ins) := by
    simp [MigrationManager.insert, List.find?]
  have hsecond : ∀ (mm : MigrationManager K V),
      mm.pending = (m.insert t_ins k v).pending.filter (fun e2 => decide (e2.1 ≠ k)) →
      ∀ t, (mm.try_take t k).1 = none := by
    intro mm hmm t
    unfold MigrationManager.try_take
    rw [hmm]
    rw [find?_filter_ne]
  constructor
  · intro hle
    have hnot : ¬ (t_ins + m.timeout < t_take) := by omega
    constructor
    · unfold MigrationManager.try_take
      rw [hfind]
      dsimp only
      simp [MigrationContext.is_timeout, MigrationContext.new, hnot]
    · have h2 : ((m.insert t_ins k v).try_take t_take k).2.pending =
          (m.insert t_ins k v).pending.filter (fun e2 => decide (e2.1 ≠ k)) := by
        unfold MigrationManager.try_take
        rw [hfind]
        dsimp only
        by_cases hb : (MigrationContext.new v m.timeout t_ins).is_timeout t_take = true
        · rw [if_pos hb]
        · rw [if_neg hb]
      exact hsecond _ h2 t2
  · intro hlt
    unfold MigrationManager.try_take
    rw [hfind]
    dsimp only
    simp [MigrationContext.is_timeout, MigrationContext.new, hlt]

/-- Witness for C9 with a `Nat`-keyed registry, TTL 100, insert at time 0,
first take at time 100 (the deadline), second take at 60, late take at 101. -/
theorem migration_insert_take_witness :
    ((100 : Nat) ≤ 0 + (MigrationManager.mk (K := Nat) (V := Nat) 100 []).timeout ∧
      (((MigrationManager.mk (K := Nat) (V := Nat) 100 []).insert 0 1 10).try_take 100 1).1 =
        some 10 ∧
      (((((MigrationManager.mk (K := Nat) (V := Nat) 100 []).insert 0 1 10).try_take
        100 1).2).try_take 60 1).1 = none) ∧
    (0 + (MigrationManager.mk (K := Nat) (V := Nat) 100 []).timeout < 101 ∧
      (((MigrationManager.mk (K := Nat) (V := Nat) 100 []).insert 0 1 10).try_take 101 1).1 =
        none) :=
  ⟨⟨by decide,
    (migration_insert_take Nat Nat ⟨100, []⟩ 1 10 0 100 60).1 (by decide)⟩,
   ⟨by decide,
    (migration_insert_take Nat Nat ⟨100, []⟩ 1 10 0 101 60).2 (by decide)⟩⟩

/-! ## Claim C10: decoder want-more leaves state and buffer untouched -/

/-- C10: when the decoder wants more input (fewer than 4 buffered bytes, or a
validated header whose payload is not fully buffered) it emits nothing and
leaves both the buffer and the crypto state unchanged, so a later call over
the same bytes plus more input decodes the identical frame; and whenever a
payload is emitted, the crypto state advances the round key exactly once
(context and version unchanged). -/
theorem decoder_incomplete_buffer :
    (∀ (sh : ShandaCipher) (c : ShroomCrypto) (src : List Nat),
      src.length < PACKET_HEADER_LEN →
      LegacyDecoder.decode sh c src = .ok (none, src, c)) ∧
    (∀ (sh : ShandaCipher) (c : ShroomCrypto) (src : List Nat) (len : Nat),
      c.decode_header (src.take PACKET_HEADER_LEN) = .ok len → len ≤ MAX_PACKET_LEN →
      src.length < PACKET_HEADER_LEN + len →
      LegacyDecoder.decode sh c src = .ok (none, src, c)) ∧
    (∀ (sh : ShandaCipher) (c : ShroomCrypto) (src : List Nat) (p rest : List Nat)
        (c' : ShroomCrypto),
      LegacyDecoder.decode sh c src = .ok (some p, rest, c') →
      c' = c.update_round_key) ∧
    (∀ (sh : ShandaCipher) (c : ShroomCrypto) (buf : List Nat) (n : Nat),
      LegacyDecoder.decode sh c (buf.take n) = .ok (none, buf.take n, c) →
      LegacyDecoder.decode sh c (buf.take n ++ buf.drop n) = LegacyDecoder.decode sh c buf) := by
  refine ⟨?_, ?_, ?_, ?_⟩
  · intro sh c src h
    simp only [LegacyDecoder.decode]
    rw [if_pos h]
  · intro sh c src len hhdr hlen hfull
    simp only [LegacyDecoder.decode]
    by_cases hsmall : src.length < PACKET_HEADER_LEN
    · rw [if_pos hsmall]
    · rw [if_neg hsmall]
      rw [hhdr]
      dsimp only
      have hchk : check_packet_len len = .ok () := by
        simp only [check_packet_len, MAX_PACKET_LEN] at *
        rw [if_neg (by omega)]
      rw [hchk]
      dsimp only
      rw [if_pos hfull]
  · intro sh c src p rest c' h
    simp only [LegacyDecoder.decode] at h
    split at h
    · simp at h
    · split at h
      · simp at h
      · split at h
        · simp at h
        · split at h
          · simp at h
          · simp only [Except.ok.injEq, Prod.mk.injEq] at h
            obtain ⟨h1, _, h3⟩ := h
            rw [← h3]
            rfl
  · intro sh c buf n _
    rw [List.take_append_drop]

/-- Witness for C10: a 2-byte buffer wants more; a header announcing 5 bytes
with nothing after it wants more, both leaving buffer and state untouched; a
complete 1-byte frame advances the round key exactly once; retrying on the
reassembled buffer is the all-at-once decode. -/
theorem decoder_incomplete_buffer_witness :
    LegacyDecoder.decode idShanda ⟨testCtx, [1, 2, 3, 4], 95⟩ [1, 2] =
      .ok (none, [1, 2], ⟨testCtx, [1, 2, 3, 4], 95⟩) ∧
    LegacyDecoder.decode idShanda ⟨testCtx, [1, 2, 3, 4], 95⟩
        (header.encode_header [1, 2, 3, 4] 5 95) =
      .ok (none, header.encode_header [1, 2, 3, 4] 5 95, ⟨testCtx, [1, 2, 3, 4], 95⟩) ∧
    (ShroomCrypto.decrypt idShanda ⟨testCtx, [1, 2, 3, 4], 95⟩ [7]).2 =
      ShroomCrypto.update_round_key ⟨testCtx, [1, 2, 3, 4], 95⟩ ∧
    LegacyDecoder.decode idShanda ⟨testCtx, [1, 2, 3, 4], 95⟩
        (([1, 2, 3] : List Nat).take 2 ++ ([1, 2, 3] : List Nat).drop 2) =
      LegacyDecoder.decode idShanda ⟨testCtx, [1, 2, 3, 4], 95⟩ [1, 2, 3] :=
  ⟨decoder_incomplete_buffer.1 idShanda ⟨testCtx, [1, 2, 3, 4], 95⟩ [1, 2] (by decide),
   decoder_incomplete_buffer.2.1 idShanda ⟨testCtx, [1, 2, 3, 4], 95⟩
     (header.encode_header [1, 2, 3, 4] 5 95) 5 (by rfl) (by decide) (by decide),
   decoder_incomplete_buffer.2.2.1 idShanda ⟨testCtx, [1, 2, 3, 4], 95⟩
     (header.encode_header [1, 2, 3, 4] 1 95 ++ [7])
     (ShroomCrypto.decrypt idShanda ⟨testCtx, [1, 2, 3, 4], 95⟩ [7]).1 []
     (ShroomCrypto.decrypt idShanda ⟨testCtx, [1, 2, 3, 4], 95⟩ [7]).2 (by rfl),
   decoder_incomplete_buffer.2.2.2 idShanda ⟨testCtx, [1, 2, 3, 4], 95⟩ [1, 2, 3] 2
     (by rfl)⟩
